import Mathlib

/-!
Verification of the noise-synthesis engine of `AdvancedNoisePatterns.py`
(class `AdvancedNoisePatterns`), shallowly embedded in Lean 4.

Modelling conventions:
* PyTorch tensors of floats become lists of lists of real numbers
  (`Field := List (List ℝ)`, row major: the outer list is dimension 0).
* `torch.meshgrid(a, b)` (default indexing, which is matrix indexing) followed
  by pointwise tensor arithmetic is embedded as a nested `List.map`: the grid
  pair at position `(i, j)` is `(a[i], b[j])`, so a formula applied to the two
  grids becomes `a.map (fun x => b.map (fun y => formula x y))`.
* Floating point arithmetic is idealised as real arithmetic.  The single NaN
  source reachable on the inputs the claims quantify over is the division by
  zero in the min-max normalisation of a constant field; normalised fields
  therefore carry `Option ℝ` entries, `none` standing for NaN.
* `torch.rand` is modelled by an explicit stream of draws passed as an
  argument (`rand : ℕ → ℝ × ℝ`, one pair of unit-interval draws per seed
  point; the top level gets one stream per batch iteration).
* An uncaught Python exception (the shape-mismatch `RuntimeError` raised by
  `noise_batch[i, c] = ...` when the generated field is transposed relative to
  the slot) makes the whole call fail, so the top level returns an `Option`,
  `none` standing for the raised exception.
-/

noncomputable section

namespace ANP

open Real

/-- A 2-D scalar field: dense tensor of shape `(length, row length)`. -/
abbrev Field : Type := List (List ℝ)

/-- A 2-D field whose entries may be NaN (`none`). -/
abbrev OField : Type := List (List (Option ℝ))

/-- One latent frame: 4 channels, each an `OField`. -/
abbrev Frame : Type := List OField

/-- `HasShape A m n`: the field has `m` rows, each of length `n`. -/
def HasShape (A : List (List α)) (m n : ℕ) : Prop :=
  A.length = m ∧ ∀ r ∈ A, r.length = n

/-- Shape of a field as recorded by a tensor: `(dim0, dim1)`, reading
dimension 1 off the first row. -/
def fshape (A : List (List α)) : ℕ × ℕ :=
  (A.length, (A.head?.getD []).length)

/-- The entry of a 2-D field at position `(i, j)` (tensor indexing
`A[i, j]`), `none` when out of range. -/
def entryAt (A : List (List α)) (i j : ℕ) : Option α :=
  (A.get? i).bind (fun r => r.get? j)

/-- `torch.linspace a b n`: `n` evenly spaced points from `a` to `b`
inclusive.  (For `n = 1` the junk term `(b-a)*0/0` is `0` in Lean, giving
`[a]`, which is what `torch.linspace` returns.) -/
def linspace (a b : ℝ) (n : ℕ) : List ℝ :=
  (List.range n).map (fun i : ℕ => a + (b - a) * (i : ℝ) / ((n : ℝ) - 1))

/-- Smallest element of a list (`torch.min` / the reduction used by
`torch.min(..., dim=1)`); `0` for the empty list, which the source never
reduces. -/
def listMin : List ℝ → ℝ
  | [] => 0
  | [x] => x
  | x :: y :: t => min x (listMin (y :: t))

/-- Largest element of a list (`torch.max`); `0` for the empty list. -/
def listMax : List ℝ → ℝ
  | [] => 0
  | [x] => x
  | x :: y :: t => max x (listMax (y :: t))

/-- All entries of a field in row-major order (`tensor.reshape(-1)`). -/
def flat (A : Field) : List ℝ :=
  A.flatten

/-- `tensor.min()` over a whole field. -/
def fminF (A : Field) : ℝ := listMin (flat A)

/-- `tensor.max()` over a whole field. -/
def fmaxF (A : Field) : ℝ := listMax (flat A)

/-- Pointwise map over a field (elementwise tensor op). -/
def fmap (g : ℝ → ℝ) (A : Field) : Field :=
  A.map (List.map g)

/-- Pointwise combination of two same-shaped fields (elementwise binary
tensor op). -/
def fzip (g : ℝ → ℝ → ℝ) (A B : Field) : Field :=
  List.zipWith (List.zipWith g) A B

/-- `torch.zeros(shape)`. -/
def zeros2 (shape : ℕ × ℕ) : Field :=
  (List.range shape.1).map (fun _ => (List.range shape.2).map (fun _ => (0 : ℝ)))

/-- `torch.sigmoid`. -/
def sigmoid (x : ℝ) : ℝ := 1 / (1 + Real.exp (-x))

/-- Python `int(x)`: truncation toward zero. -/
def pyInt (x : ℝ) : ℤ := if x < 0 then ⌈x⌉ else ⌊x⌋

/-! ## The five generators (`generate_simplex`, `generate_cellular`,
`generate_fbm`, `generate_wave`, `domain_warp`) -/

/-- `generate_simplex(shape, freq)`: coordinate grids over `[-π, π]`
(`meshgrid`, matrix indexing: `coords[0]` varies along dimension 0,
`coords[1]` along dimension 1), then
`tanh(sin(c0*freq) * cos(c1*freq*1.5)) * sigmoid(cos(c0*freq*0.7) * sin(c1*freq*2))`. -/
def generate_simplex (shape : ℕ × ℕ) (freq : ℝ) : Field :=
  (linspace (-Real.pi) Real.pi shape.1).map (fun c0 =>
    (linspace (-Real.pi) Real.pi shape.2).map (fun c1 =>
      Real.tanh (Real.sin (c0 * freq) * Real.cos (c1 * freq * 1.5)) *
        sigmoid (Real.cos (c0 * freq * 0.7) * Real.sin (c1 * freq * 2))))

/-- The seed points of `generate_cellular`:
`torch.rand(numPoints, 2) * torch.tensor(shape) * chaos_factor`. -/
def cellPoints (shape : ℕ × ℕ) (numPoints : ℕ) (chaos_factor : ℝ)
    (rand : ℕ → ℝ × ℝ) : List (ℝ × ℝ) :=
  (List.range numPoints).map (fun k =>
    ((rand k).1 * shape.1 * chaos_factor, (rand k).2 * shape.2 * chaos_factor))

/-- Per-cell nearest distance to the seed set
(`torch.min(torch.sqrt((x - points[:,0])**2 + (y - points[:,1])**2), dim=1)`,
at grid cell `(i, j)` where `x = i`, `y = j`). -/
def cellD1 (shape : ℕ × ℕ) (numPoints : ℕ) (chaos_factor : ℝ)
    (rand : ℕ → ℝ × ℝ) (i j : ℕ) : ℝ :=
  listMin ((cellPoints shape numPoints chaos_factor rand).map (fun p =>
    Real.sqrt (((i : ℝ) - p.1) ^ 2 + ((j : ℝ) - p.2) ^ 2)))

/-- Per-cell nearest distance to the *same* seed set with coordinates scaled
by `(1.5, 0.8)`
(`torch.min(torch.sqrt((x - points[:,0]*1.5)**2 + (y - points[:,1]*0.8)**2), dim=1)`). -/
def cellD2 (shape : ℕ × ℕ) (numPoints : ℕ) (chaos_factor : ℝ)
    (rand : ℕ → ℝ × ℝ) (i j : ℕ) : ℝ :=
  listMin ((cellPoints shape numPoints chaos_factor rand).map (fun p =>
    Real.sqrt (((i : ℝ) - p.1 * 1.5) ^ 2 + ((j : ℝ) - p.2 * 0.8) ^ 2)))

/-- `generate_cellular(shape, numPoints, chaos_factor)`.  One random seed set
is drawn; both distance fields are computed against it (the second against the
same points rescaled), and the output is `sin(d1*0.2) * cos(d2*0.15)`.  The
flatten/broadcast/min/reshape dance of the source computes exactly the
per-cell minimum distances. -/
def generate_cellular (shape : ℕ × ℕ) (numPoints : ℕ) (chaos_factor : ℝ)
    (rand : ℕ → ℝ × ℝ) : Field :=
  (List.range shape.1).map (fun i =>
    (List.range shape.2).map (fun j =>
      Real.sin (cellD1 shape numPoints chaos_factor rand i j * 0.2) *
        Real.cos (cellD2 shape numPoints chaos_factor rand i j * 0.15)))

/-- Modelled from the spec (section 4.3), not from the source: the spec's
words call for "two independent seed sets, the second with seed coordinates
scaled anisotropically by (1.5, 0.8)", so this variant draws a second,
independent set of points from its own stream `rand2` for the second distance
field.  It is compared against `generate_cellular` (the source), which reuses
the single seed set. -/
def generate_cellular_spec (shape : ℕ × ℕ) (numPoints : ℕ) (chaos_factor : ℝ)
    (rand rand2 : ℕ → ℝ × ℝ) : Field :=
  (List.range shape.1).map (fun i =>
    (List.range shape.2).map (fun j =>
      Real.sin (cellD1 shape numPoints chaos_factor rand i j * 0.2) *
        Real.cos (cellD2 shape numPoints chaos_factor rand2 i j * 0.15)))

/-- `generate_fbm(shape, octaves, persistence, lacunarity, chaos)`:
accumulate `octaves` simplex layers with chaos-boosted amplitude and
frequency updates, then squash with `tanh`. -/
def generate_fbm (shape : ℕ × ℕ) (octaves : ℕ)
    (persistence lacunarity chaos : ℝ) : Field :=
  let r := (List.range octaves).foldl
    (fun (st : Field × ℝ × ℝ) _ =>
      (fzip (fun a b => a + st.2.1 * b) st.1
          (generate_simplex shape (st.2.2 * chaos)),
        st.2.1 * (persistence * (1 + chaos * 0.2)),
        st.2.2 * (lacunarity * (1 + chaos * 0.1))))
    (zeros2 shape, 1.0, 1.0)
  fmap Real.tanh r.1

/-- `generate_wave(shape, frequency, phases)`.  Note the swapped `meshgrid`
arguments of the source: `x` is spaced over `shape[1]` (the width) and is the
*first* `meshgrid` argument, so the resulting grids — and the returned field —
have shape `(shape.2, shape.1)`. -/
def generate_wave (shape : ℕ × ℕ) (frequency : ℝ) (phases : ℝ × ℝ) : Field :=
  (linspace (-Real.pi) Real.pi shape.2).map (fun x =>
    (linspace (-Real.pi) Real.pi shape.1).map (fun y =>
      (Real.sin (x * frequency + phases.1) * Real.cos (y * frequency * 1.3 + phases.2) +
        Real.cos (x * frequency * 0.7 + phases.2) * Real.sin (y * frequency * 1.7 + phases.1) +
        Real.sin ((x + y) * frequency * 0.5) * Real.cos ((x - y) * frequency * 0.8)) / 3))

/-- Pixel fetch with the zero padding of `torch.nn.functional.grid_sample`
(default `padding_mode` is zeros): out-of-range indices contribute `0`. -/
def pixAt (input : Field) (iy ix : ℤ) : ℝ :=
  if 0 ≤ iy ∧ iy < (input.length : ℤ) ∧ 0 ≤ ix ∧ ix < (((input.head?.getD []).length : ℤ)) then
    (((input.get? iy.toNat).getD []).get? ix.toNat).getD 0
  else 0

/-- `grid_sample` coordinate unnormalisation with `align_corners=False`:
`x_pix = ((x + 1) * size - 1) / 2`. -/
def unnorm (size : ℕ) (c : ℝ) : ℝ := ((c + 1) * size - 1) / 2

/-- Bilinear sample of `input` at the normalised coordinates `(cx, cy)`
(`cx` along dimension 1, `cy` along dimension 0), `align_corners=False`,
zero padding: the consumed `torch.nn.functional.grid_sample` primitive. -/
def bilinearSample (input : Field) (cx cy : ℝ) : ℝ :=
  let fx := unnorm (input.head?.getD []).length cx
  let fy := unnorm input.length cy
  let x0 : ℤ := ⌊fx⌋
  let y0 : ℤ := ⌊fy⌋
  pixAt input y0 x0 * (((x0 : ℝ) + 1) - fx) * (((y0 : ℝ) + 1) - fy) +
    pixAt input y0 (x0 + 1) * (fx - (x0 : ℝ)) * (((y0 : ℝ) + 1) - fy) +
    pixAt input (y0 + 1) x0 * (((x0 : ℝ) + 1) - fx) * (fy - (y0 : ℝ)) +
    pixAt input (y0 + 1) (x0 + 1) * (fx - (x0 : ℝ)) * (fy - (y0 : ℝ))

/-- `grid_sample(input[None,None], grid[None], align_corners=False)[0,0]`:
one sampled value per grid position, so the output has the grid's shape. -/
def gridSample (input : Field) (grid : List (List (ℝ × ℝ))) : Field :=
  grid.map (List.map (fun c => bilinearSample input c.1 c.2))

/-- `domain_warp(noise, warp_factor, timestamp)`.  The sampling grid is built
by `meshgrid(linspace(-1,1,width), linspace(-1,1,height))`, hence has shape
`(width, height)`; after `stack` and `permute(1,2,0)` the grid fed to
`grid_sample` still has spatial shape `(width, height)`, so the warped field
is the *transpose* shape of the input. -/
def domain_warp (noise : Field) (warp_factor timestamp : ℝ) : Field :=
  let height := noise.length
  let width := (noise.head?.getD []).length
  let warpGrid : List (List (ℝ × ℝ)) :=
    (linspace (-1) 1 width).map (fun gx =>
      (linspace (-1) 1 height).map (fun gy =>
        (gx + warp_factor * Real.sin (6 * Real.pi * timestamp + gy * 2) * Real.cos (gx * 3),
          gy + warp_factor * Real.cos (6 * Real.pi * timestamp + gx * 2) * Real.sin (gy * 3))))
  fmap (fun v => Real.tanh (v * 2)) (gridSample noise warpGrid)

/-! ## Schedule deriver -/

/-- `time_scale = (timestamp / timestamps[-1]) ** 0.3`. -/
def time_scale (t tsLast : ℝ) : ℝ := (t / tsLast) ^ (0.3 : ℝ)

/-- `energy_factor = intensity * (1 + np.exp(time_scale * 2) - 1)`. -/
def energy_factor (intensity tsc : ℝ) : ℝ :=
  intensity * (1 + Real.exp (tsc * 2) - 1)

/-- `chaos = 0.5 + abs(np.sin(timestamp * 10)) * 2`. -/
def chaos_of (t : ℝ) : ℝ := 0.5 + |Real.sin (t * 10)| * 2

/-! ## Min-max normalisation and channel expansion -/

/-- The values `(v - min) / (max - min)` of the min-max rescaling. -/
def normVals (A : Field) : Field :=
  A.map (List.map (fun v => (v - fminF A) / (fmaxF A - fminF A)))

/-- `(base_noise - base_noise.min()) / (base_noise.max() - base_noise.min())`.
When `max = min` (a constant field) every float entry is `0/0 = NaN`,
modelled as `none`; otherwise every entry is the real rescaled value. -/
def normalizeField (A : Field) : OField :=
  if fmaxF A = fminF A then A.map (List.map (fun _ => (none : Option ℝ)))
  else A.map (List.map (fun v => some ((v - fminF A) / (fmaxF A - fminF A))))

/-- Channel `c` of the channel expander:
`channel_phase = c * np.pi / 2 * chaos`,
`channel_noise = sin(base * (8 + channel_phase)) * energy_factor`, output
`tanh(channel_noise * 2)`; NaN propagates through all of these. -/
def channelField (norm : OField) (c : ℕ) (ef ch : ℝ) : OField :=
  norm.map (List.map (Option.map (fun v =>
    Real.tanh (Real.sin (v * (8 + (c : ℝ) * Real.pi / 2 * ch)) * ef * 2))))

/-- The four channels written into `noise_batch[i]` (`for c in range(4)`). -/
def frameChans (norm : OField) (ef ch : ℝ) : Frame :=
  (List.range 4).map (fun c => channelField norm c ef ch)

/-- Normalise a base field and expand it into one frame.  The guard models
the `noise_batch[i, c] = ...` assignments: they raise a `RuntimeError`
(`none`) unless the generated field has exactly the latent shape `(H, W)`
(the generators always produce full-size rectangular fields, so PyTorch
broadcasting never applies). -/
def mkFrame (base : Field) (H W : ℕ) (ef ch : ℝ) : Option Frame :=
  if fshape base = (H, W) then some (frameChans (normalizeField base) ef ch)
  else none

/-! ## Noise parameter dictionaries (`noise_params`) -/

/-- A per-family sub-dictionary: optional `intensity` and `persistence`
entries (read with `.get("intensity", 1.0)` / `.get("persistence", 0.5)`). -/
structure FamRec where
  intensity : Option ℝ
  persistence : Option ℝ

/-- A value of the `noise_params` dictionary: either the timestamp list or a
family sub-dictionary. -/
inductive NVal where
  | ts (l : List ℝ)
  | fam (f : FamRec)

/-- The `noise_params` dictionary: an association list keyed by strings, the
lookup returning the first (and in Python the only) binding of a key. -/
abbrev Params : Type := List (String × NVal)

/-- `default_noise_params` of `generate_advanced_noise`. -/
def default_noise_params : Params :=
  [("timestamps", NVal.ts [0.0, 0.5, 1.0]),
   ("simplex", NVal.fam ⟨some 1.0, none⟩),
   ("cellular", NVal.fam ⟨some 1.0, none⟩),
   ("fbm", NVal.fam ⟨some 1.0, some 0.5⟩),
   ("wave", NVal.fam ⟨some 1.0, none⟩),
   ("domain_warp", NVal.fam ⟨some 1.0, none⟩)]

/-- The default-merging loop:
`for key in default_noise_params: if key not in noise_params: noise_params[key] = default[key]`.
Missing keys are appended (Python dict insertion order). -/
def mergeLoop (ds : Params) (acc : Params) : Params :=
  ds.foldl (fun acc kv =>
    if (List.lookup kv.1 acc).isSome then acc else acc ++ [kv]) acc

/-- Parameter resolution: an empty (falsy) dictionary is replaced wholesale
by the defaults, a non-empty one is merged in place.  For a non-empty caller
dictionary the result is also the post-call state of the caller's own
dictionary, since the source mutates it. -/
def mergeParams (p : Params) : Params :=
  match p with
  | [] => default_noise_params
  | _ => mergeLoop default_noise_params p

/-- `noise_params["timestamps"]`.  After merging the key is always present;
the fallback `[]` for a value that is not a timestamp list is a modelling
guard only (the source would raise on such an ill-typed value, and no theorem
below exercises it). -/
def getTs (p : Params) : List ℝ :=
  match List.lookup "timestamps" p with
  | some (NVal.ts l) => l
  | _ => []

/-- `noise_params[noise_type]`, with the same well-typedness proviso as
`getTs`. -/
def getFam (p : Params) (ty : String) : FamRec :=
  match List.lookup ty p with
  | some (NVal.fam f) => f
  | _ => ⟨none, none⟩

/-! ## Top-level orchestration (`generate_advanced_noise`) -/

/-- Dispatch over `noise_type` with the family-specific derived parameters of
the source's `if/elif` chain.  `pers` is the loop's `persistence` variable as
it stands at the dispatch (for `"fbm"` it was just overwritten with
`0.2 + energy_factor * 0.8`); only the `"fbm"` branch reads it, and only the
`"cellular"` branch draws randomness.  The source leaves `base_noise`
undefined for an unrecognised `noise_type` (a defect per spec section 7); the
final catch-all returns a zero field and every theorem below restricts
`noise_type` to the five recognised families. -/
def baseNoiseFor (ty : String) (H W : ℕ) (ef ch t pers : ℝ)
    (rand : ℕ → ℝ × ℝ) : Field :=
  if ty = "simplex" then generate_simplex (H, W) (1 + ef * 30)
  else if ty = "cellular" then
    generate_cellular (H, W) (pyInt (3 + ef * 150)).toNat ch rand
  else if ty = "fbm" then
    generate_fbm (H, W) (pyInt (2 + ef * 6)).toNat pers (1.2 + ef * 4) ch
  else if ty = "wave" then
    generate_wave (H, W) (0.3 + ef * 12)
      (t * 8 * Real.pi * ch, t * 6 * Real.pi * (2 - ch))
  else if ty = "domain_warp" then
    domain_warp (generate_simplex (H, W) (2 * ch)) (0.1 + ef * 1.2) t
  else zeros2 (H, W)

/-- One iteration of `for i, timestamp in enumerate(timestamps)`.  The state
carries the loop's `persistence` variable and the frames written so far; a
raised exception (`none`) aborts every later iteration. -/
def stepFrame (H W : ℕ) (ty : String) (intensity tsLast : ℝ)
    (rng : ℕ → ℕ → ℝ × ℝ) (st : Option (ℝ × List Frame)) (it : ℕ × ℝ) :
    Option (ℝ × List Frame) :=
  match st with
  | none => none
  | some (pers, acc) =>
    let tsc := time_scale it.2 tsLast
    let ef := energy_factor intensity tsc
    let ch := chaos_of it.2
    let pers2 := if ty = "fbm" then 0.2 + ef * 0.8 else pers
    match mkFrame (baseNoiseFor ty H W ef ch it.2 pers2 (rng it.1)) H W ef ch with
    | none => none
    | some fr => some (pers2, acc ++ [fr])

/-- The per-timestamp loop plus the final pairing with the timestamp list. -/
def runLoop (H W : ℕ) (ty : String) (intensity pers0 tsLast : ℝ)
    (rng : ℕ → ℕ → ℝ × ℝ) (ts : List ℝ) : Option (List Frame × List ℝ) :=
  match ts.enum.foldl (stepFrame H W ty intensity tsLast rng) (some (pers0, [])) with
  | none => none
  | some (_, frames) => some (frames, ts)

/-- The zero frame of the degenerate empty-timestamps return
`torch.zeros((1, 4, height//8, width//8))`. -/
def zeroFrame (H W : ℕ) : Frame :=
  (List.range 4).map (fun _ =>
    (List.range H).map (fun _ => (List.range W).map (fun _ => some (0 : ℝ))))

/-- `generate_advanced_noise(noise_params, width, height, noise_type, ...)`.
Returns `none` when the Python call would raise, otherwise
`some (batch, timestamps)`. -/
def generate_advanced_noise (noise_params : Params) (width height : ℕ)
    (noise_type : String) (rng : ℕ → ℕ → ℝ × ℝ) :
    Option (List Frame × List ℝ) :=
  let merged := mergeParams noise_params
  match getTs merged with
  | [] => some ([zeroFrame (height / 8) (width / 8)], [0])
  | t0 :: rest =>
    let fam := getFam merged noise_type
    runLoop (height / 8) (width / 8) noise_type (fam.intensity.getD 1)
      (fam.persistence.getD 0.5) ((t0 :: rest).getLastD 0) rng (t0 :: rest)

/-- The frame generated for enumerated timestamp `it = (i, t)` — total
version (`[]` in the unreachable error case), used to state that frame `i` of
the batch is assembled from timestamp `i`. -/
def frameAtD (ty : String) (H W : ℕ) (intensity tsLast : ℝ)
    (rng : ℕ → ℕ → ℝ × ℝ) (it : ℕ × ℝ) : Frame :=
  let tsc := time_scale it.2 tsLast
  let ef := energy_factor intensity tsc
  let ch := chaos_of it.2
  (mkFrame (baseNoiseFor ty H W ef ch it.2 (0.2 + ef * 0.8) (rng it.1)) H W ef ch).getD []

/-- The intensity actually read for the selected family. -/
def intensityOf (p : Params) (ty : String) : ℝ :=
  ((getFam (mergeParams p) ty).intensity).getD 1

/-- The recognised-family condition under which the per-channel assignment of
the batch loop succeeds: one of the three matrix-indexed generators, or one
of the two transposed generators on a square latent grid. -/
def tyOk (ty : String) (H W : ℕ) : Prop :=
  ty = "simplex" ∨ ty = "cellular" ∨ ty = "fbm" ∨
    ((ty = "wave" ∨ ty = "domain_warp") ∧ H = W)

/-- All defined (non-NaN) entries of a frame lie in `[-1, 1]`. -/
def FrameOK (fr : Frame) : Prop :=
  ∀ chn ∈ fr, ∀ row ∈ chn, ∀ x ∈ row, ∀ r : ℝ, x = some r → -1 ≤ r ∧ r ≤ 1

/-- Overwrite the `persistence` entry of a family record. -/
def setPersV (v : NVal) (o : Option ℝ) : NVal :=
  match v with
  | NVal.fam f => NVal.fam ⟨f.intensity, o⟩
  | x => x

/-- Replace the `persistence` entry of the `"fbm"` sub-dictionary of a
parameter dictionary (all other bindings untouched). -/
def updFbmPers (p : Params) (o : Option ℝ) : Params :=
  p.map (fun kv => if kv.1 = "fbm" then (kv.1, setPersV kv.2 o) else kv)

/-- Two dictionary values that agree except possibly in a family record's
`persistence` entry. -/
def valRel : NVal → NVal → Prop
  | NVal.fam f, NVal.fam g => f.intensity = g.intensity
  | v, w => v = w

/-- Two dictionary bindings with the same key, whose values agree — except,
for the key `"fbm"`, possibly in the `persistence` entry. -/
def entryRel (a b : String × NVal) : Prop :=
  a.1 = b.1 ∧ (a.1 = "fbm" → valRel a.2 b.2) ∧ (a.1 ≠ "fbm" → a.2 = b.2)

/-- Two parameter dictionaries that differ at most in the `"fbm"`
sub-dictionary's `persistence` entry. -/
def PA (P Q : Params) : Prop := List.Forall₂ entryRel P Q

/-! ## Basic facts about `tanh`, `listMin`, `listMax` -/

theorem neg_one_lt_tanh (x : ℝ) : -1 < Real.tanh x := by
  have hc := Real.cosh_pos x
  have h1 : Real.sinh (-x) < Real.cosh (-x) := Real.sinh_lt_cosh (-x)
  rw [Real.sinh_neg, Real.cosh_neg] at h1
  rw [Real.tanh_eq_sinh_div_cosh, lt_div_iff₀ hc]
  linarith

theorem tanh_lt_one (x : ℝ) : Real.tanh x < 1 := by
  have hc := Real.cosh_pos x
  have h1 : Real.sinh x < Real.cosh x := Real.sinh_lt_cosh x
  rw [Real.tanh_eq_sinh_div_cosh, div_lt_one hc]
  exact h1

theorem listMin_le : ∀ {l : List ℝ} {x : ℝ}, x ∈ l → listMin l ≤ x := by
  intro l
  induction l with
  | nil => intro x h; cases h
  | cons a t ih =>
    intro x h
    cases t with
    | nil =>
      rcases List.mem_singleton.mp h with rfl
      exact le_refl _
    | cons b t2 =>
      rcases List.mem_cons.mp h with rfl | h2
      · exact min_le_left _ _
      · exact le_trans (min_le_right _ _) (ih h2)

theorem le_listMax : ∀ {l : List ℝ} {x : ℝ}, x ∈ l → x ≤ listMax l := by
  intro l
  induction l with
  | nil => intro x h; cases h
  | cons a t ih =>
    intro x h
    cases t with
    | nil =>
      rcases List.mem_singleton.mp h with rfl
      exact le_refl _
    | cons b t2 =>
      rcases List.mem_cons.mp h with rfl | h2
      · exact le_max_left _ _
      · exact le_trans (ih h2) (le_max_right _ _)

theorem listMin_mem : ∀ {l : List ℝ}, l ≠ [] → listMin l ∈ l := by
  intro l
  induction l with
  | nil => intro h; exact absurd rfl h
  | cons a t ih =>
    intro _
    cases t with
    | nil => exact List.mem_singleton.mpr rfl
    | cons b t2 =>
      rcases le_total a (listMin (b :: t2)) with h | h
      · exact List.mem_cons.mpr (Or.inl (min_eq_left h))
      · refine List.mem_cons.mpr (Or.inr ?_)
        rw [show listMin (a :: b :: t2) = min a (listMin (b :: t2)) from rfl,
          min_eq_right h]
        exact ih (List.cons_ne_nil _ _)

theorem listMax_mem : ∀ {l : List ℝ}, l ≠ [] → listMax l ∈ l := by
  intro l
  induction l with
  | nil => intro h; exact absurd rfl h
  | cons a t ih =>
    intro _
    cases t with
    | nil => exact List.mem_singleton.mpr rfl
    | cons b t2 =>
      rcases le_total (listMax (b :: t2)) a with h | h
      · exact List.mem_cons.mpr (Or.inl (max_eq_left h))
      · refine List.mem_cons.mpr (Or.inr ?_)
        rw [show listMax (a :: b :: t2) = max a (listMax (b :: t2)) from rfl,
          max_eq_right h]
        exact ih (List.cons_ne_nil _ _)

theorem listMin_map (g : ℝ → ℝ) (hg : ∀ a b : ℝ, g (min a b) = min (g a) (g b)) :
    ∀ {l : List ℝ}, l ≠ [] → listMin (l.map g) = g (listMin l) := by
  intro l
  induction l with
  | nil => intro h; exact absurd rfl h
  | cons a t ih =>
    intro _
    cases t with
    | nil => rfl
    | cons b t2 =>
      show min (g a) (listMin ((b :: t2).map g)) = g (min a (listMin (b :: t2)))
      rw [ih (List.cons_ne_nil _ _), hg]

theorem listMax_map (g : ℝ → ℝ) (hg : ∀ a b : ℝ, g (max a b) = max (g a) (g b)) :
    ∀ {l : List ℝ}, l ≠ [] → listMax (l.map g) = g (listMax l) := by
  intro l
  induction l with
  | nil => intro h; exact absurd rfl h
  | cons a t ih =>
    intro _
    cases t with
    | nil => rfl
    | cons b t2 =>
      show max (g a) (listMax ((b :: t2).map g)) = g (max a (listMax (b :: t2)))
      rw [ih (List.cons_ne_nil _ _), hg]

/-! ## Shape lemmas -/

theorem length_linspace (a b : ℝ) (n : ℕ) : (linspace a b n).length = n := by
  simp [linspace]

theorem hasShape_simplex (H W : ℕ) (f : ℝ) :
    HasShape (generate_simplex (H, W) f) H W := by
  refine ⟨by simp [generate_simplex, linspace], ?_⟩
  intro r hr
  simp only [generate_simplex, List.mem_map] at hr
  obtain ⟨x, _, rfl⟩ := hr
  simp [linspace]

theorem hasShape_cellular (H W n : ℕ) (ch : ℝ) (rand : ℕ → ℝ × ℝ) :
    HasShape (generate_cellular (H, W) n ch rand) H W := by
  refine ⟨by simp [generate_cellular], ?_⟩
  intro r hr
  simp only [generate_cellular, List.mem_map] at hr
  obtain ⟨i, _, rfl⟩ := hr
  simp

theorem hasShape_zeros2 (H W : ℕ) : HasShape (zeros2 (H, W)) H W := by
  refine ⟨by simp [zeros2], ?_⟩
  intro r hr
  simp only [zeros2, List.mem_map] at hr
  obtain ⟨i, _, rfl⟩ := hr
  simp

theorem hasShape_fmap (g : ℝ → ℝ) {A : Field} {m n : ℕ} (hA : HasShape A m n) :
    HasShape (fmap g A) m n := by
  refine ⟨by simp [fmap, hA.1], ?_⟩
  intro r hr
  simp only [fmap, List.mem_map] at hr
  obtain ⟨a, ha, rfl⟩ := hr
  simp [hA.2 a ha]

theorem hasShape_fzip (g : ℝ → ℝ → ℝ) :
    ∀ (A B : Field) (m n : ℕ), HasShape A m n → HasShape B m n →
      HasShape (fzip g A B) m n := by
  intro A
  induction A with
  | nil =>
    intro B m n hA _
    refine ⟨?_, ?_⟩
    · show (List.zipWith _ ([] : Field) B).length = m
      simpa using hA.1
    · intro r hr
      simp [fzip] at hr
  | cons a A ih =>
    intro B m n hA hB
    cases B with
    | nil =>
      exfalso
      have h1 := hA.1
      have h2 := hB.1
      simp at h1 h2
      omega
    | cons b B =>
      cases m with
      | zero => exact absurd hA.1 (by simp)
      | succ m =>
        have hA1 : A.length = m := by simpa using hA.1
        have hB1 : B.length = m := by simpa using hB.1
        have ihh := ih B m n ⟨hA1, fun r hr => hA.2 r (List.mem_cons_of_mem _ hr)⟩
          ⟨hB1, fun r hr => hB.2 r (List.mem_cons_of_mem _ hr)⟩
        have hc : fzip g (a :: A) (b :: B) = List.zipWith g a b :: fzip g A B := rfl
        refine ⟨?_, ?_⟩
        · rw [hc]
          simpa using ihh.1
        · intro r hr
          rw [hc] at hr
          rcases List.mem_cons.mp hr with rfl | h2
          · have ha := hA.2 a (List.mem_cons_self _ _)
            have hb := hB.2 b (List.mem_cons_self _ _)
            simp [List.length_zipWith, ha, hb]
          · exact ihh.2 r h2

theorem hasShape_fbm (H W o : ℕ) (pe la ch : ℝ) :
    HasShape (generate_fbm (H, W) o pe la ch) H W := by
  simp only [generate_fbm]
  refine hasShape_fmap _ ?_
  have key : ∀ (l : List ℕ) (st : Field × ℝ × ℝ), HasShape st.1 H W →
      HasShape ((l.foldl (fun (st : Field × ℝ × ℝ) _ =>
        (fzip (fun a b => a + st.2.1 * b) st.1
            (generate_simplex (H, W) (st.2.2 * ch)),
          st.2.1 * (pe * (1 + ch * 0.2)),
          st.2.2 * (la * (1 + ch * 0.1)))) st).1) H W := by
    intro l
    induction l with
    | nil => intro st h; exact h
    | cons x l ih =>
      intro st h
      exact ih _ (hasShape_fzip _ _ _ _ _ h (hasShape_simplex H W _))
  exact key _ _ (hasShape_zeros2 H W)

theorem hasShape_wave (H W : ℕ) (f : ℝ) (ph : ℝ × ℝ) :
    HasShape (generate_wave (H, W) f ph) W H := by
  refine ⟨by simp [generate_wave, linspace], ?_⟩
  intro r hr
  simp only [generate_wave, List.mem_map] at hr
  obtain ⟨x, _, rfl⟩ := hr
  simp [linspace]

theorem hasShape_domain_warp (A : Field) (wf t : ℝ) :
    HasShape (domain_warp A wf t) ((A.head?.getD []).length) A.length := by
  simp only [domain_warp]
  refine hasShape_fmap _ ?_
  refine ⟨by simp [gridSample, linspace], ?_⟩
  intro r hr
  simp only [gridSample, List.mem_map] at hr
  obtain ⟨row, hrow, rfl⟩ := hr
  obtain ⟨x, _, rfl⟩ := hrow
  simp [linspace]

theorem hasShape_normalizeField {A : Field} {m n : ℕ} (h : HasShape A m n) :
    HasShape (normalizeField A) m n := by
  unfold normalizeField
  split
  · refine ⟨by simp [h.1], ?_⟩
    intro r hr
    simp only [List.mem_map] at hr
    obtain ⟨a, ha, rfl⟩ := hr
    simp [h.2 a ha]
  · refine ⟨by simp [h.1], ?_⟩
    intro r hr
    simp only [List.mem_map] at hr
    obtain ⟨a, ha, rfl⟩ := hr
    simp [h.2 a ha]

theorem hasShape_channelField {A : OField} {m n : ℕ} (h : HasShape A m n)
    (c : ℕ) (ef ch : ℝ) : HasShape (channelField A c ef ch) m n := by
  refine ⟨by simp [channelField, h.1], ?_⟩
  intro r hr
  simp only [channelField, List.mem_map] at hr
  obtain ⟨a, ha, rfl⟩ := hr
  simp [h.2 a ha]

theorem fshape_of_hasShape {A : Field} {m n : ℕ} (h : HasShape A m n)
    (hm : 0 < m) : fshape A = (m, n) := by
  cases A with
  | nil => exact absurd h.1 (by simp; omega)
  | cons a t =>
    have := h.2 a (List.mem_cons_self _ _)
    simp [fshape, h.1, this]

theorem head_len_of_hasShape {A : Field} {m n : ℕ} (h : HasShape A m n)
    (hm : 0 < m) : (A.head?.getD []).length = n := by
  have := fshape_of_hasShape h hm
  simp only [fshape, Prod.mk.injEq] at this
  exact this.2

/-! ## Dispatch lemmas -/

theorem baseNoiseFor_pers_irrel {ty : String} (hty : ty ≠ "fbm")
    (H W : ℕ) (ef ch t p1 p2 : ℝ) (rand : ℕ → ℝ × ℝ) :
    baseNoiseFor ty H W ef ch t p1 rand = baseNoiseFor ty H W ef ch t p2 rand := by
  unfold baseNoiseFor
  split_ifs with h1 h2 h3 h4 h5 <;> first | rfl | exact absurd h3 hty

theorem baseNoiseFor_rand_irrel {ty : String} (hty : ty ≠ "cellular")
    (H W : ℕ) (ef ch t pers : ℝ) (r1 r2 : ℕ → ℝ × ℝ) :
    baseNoiseFor ty H W ef ch t pers r1 = baseNoiseFor ty H W ef ch t pers r2 := by
  unfold baseNoiseFor
  split_ifs with h1 h2 h3 h4 h5 <;> first | rfl | exact absurd h2 hty

theorem hasShape_baseNoiseFor {ty : String} {H W : ℕ} (hok : tyOk ty H W)
    (hH : 0 < H) (ef ch t pers : ℝ) (rand : ℕ → ℝ × ℝ) :
    HasShape (baseNoiseFor ty H W ef ch t pers rand) H W := by
  rcases hok with rfl | rfl | rfl | ⟨rfl | rfl, hsq⟩
  · exact hasShape_simplex H W _
  · exact hasShape_cellular H W _ _ _
  · exact hasShape_fbm H W _ _ _ _
  · show HasShape (generate_wave (H, W) _ _) H W
    rw [hsq]
    exact hasShape_wave W W _ _
  · show HasShape (domain_warp (generate_simplex (H, W) (2 * ch)) _ _) H W
    have hs := hasShape_simplex H W (2 * ch)
    have h1 := hasShape_domain_warp (generate_simplex (H, W) (2 * ch)) (0.1 + ef * 1.2) t
    rw [head_len_of_hasShape hs hH, hs.1] at h1
    rw [hsq]
    rwa [hsq] at h1

theorem mkFrame_eq_some {base : Field} {H W : ℕ} (h : HasShape base H W)
    (hH : 0 < H) (ef ch : ℝ) :
    mkFrame base H W ef ch = some (frameChans (normalizeField base) ef ch) := by
  unfold mkFrame
  rw [if_pos (fshape_of_hasShape h hH)]

/-! ## Loop lemmas -/

theorem stepFrame_none (H W : ℕ) (ty : String) (intensity tsLast : ℝ)
    (rng : ℕ → ℕ → ℝ × ℝ) (it : ℕ × ℝ) :
    stepFrame H W ty intensity tsLast rng none it = none := rfl

theorem stepFrame_some_eq {ty : String} {H W : ℕ} (hok : tyOk ty H W)
    (hH : 0 < H) (intensity tsLast : ℝ) (rng : ℕ → ℕ → ℝ × ℝ)
    (pers : ℝ) (acc : List Frame) (it : ℕ × ℝ) :
    stepFrame H W ty intensity tsLast rng (some (pers, acc)) it =
      some ((if ty = "fbm" then
          0.2 + energy_factor intensity (time_scale it.2 tsLast) * 0.8 else pers),
        acc ++ [frameAtD ty H W intensity tsLast rng it]) := by
  simp only [stepFrame, frameAtD]
  set e := energy_factor intensity (time_scale it.2 tsLast) with he
  set c := chaos_of it.2 with hc
  have hbb : baseNoiseFor ty H W e c it.2 (if ty = "fbm" then 0.2 + e * 0.8 else pers)
        (rng it.1) =
      baseNoiseFor ty H W e c it.2 (0.2 + e * 0.8) (rng it.1) := by
    by_cases hf : ty = "fbm"
    · rw [if_pos hf]
    · rw [if_neg hf]
      exact baseNoiseFor_pers_irrel hf H W e c it.2 _ _ (rng it.1)
  rw [hbb, mkFrame_eq_some (hasShape_baseNoiseFor hok hH e c it.2 _ (rng it.1)) hH e c]
  rfl

theorem foldl_stepFrame_ok {ty : String} {H W : ℕ} (hok : tyOk ty H W)
    (hH : 0 < H) (intensity tsLast : ℝ) (rng : ℕ → ℕ → ℝ × ℝ) :
    ∀ (l : List (ℕ × ℝ)) (pers : ℝ) (acc : List Frame),
      ∃ p2, l.foldl (stepFrame H W ty intensity tsLast rng) (some (pers, acc)) =
        some (p2, acc ++ l.map (frameAtD ty H W intensity tsLast rng)) := by
  intro l
  induction l with
  | nil =>
    intro pers acc
    exact ⟨pers, by simp⟩
  | cons it l ih =>
    intro pers acc
    rw [List.foldl_cons, stepFrame_some_eq hok hH intensity tsLast rng pers acc it]
    obtain ⟨p2, hp⟩ := ih _ (acc ++ [frameAtD ty H W intensity tsLast rng it])
    exact ⟨p2, by rw [hp]; simp⟩

theorem foldl_stepFrame_none (H W : ℕ) (ty : String) (intensity tsLast : ℝ)
    (rng : ℕ → ℕ → ℝ × ℝ) (l : List (ℕ × ℝ)) :
    l.foldl (stepFrame H W ty intensity tsLast rng) none = none := by
  induction l with
  | nil => rfl
  | cons it l ih => rw [List.foldl_cons, stepFrame_none]; exact ih

/-! ## Range invariant: every written entry is a `tanh` value -/

theorem frameOK_frameChans (norm : OField) (ef ch : ℝ) :
    FrameOK (frameChans norm ef ch) := by
  intro chn hchn row hrow x hx r hr
  simp only [frameChans, List.mem_map] at hchn
  obtain ⟨c, _, rfl⟩ := hchn
  simp only [channelField, List.mem_map] at hrow
  obtain ⟨row0, _, rfl⟩ := hrow
  simp only [List.mem_map] at hx
  obtain ⟨y, _, rfl⟩ := hx
  cases y with
  | none => exact Option.noConfusion hr
  | some v =>
    have hr2 := Option.some.inj hr
    subst hr2
    exact ⟨(neg_one_lt_tanh _).le, (tanh_lt_one _).le⟩

theorem frameOK_zeroFrame (H W : ℕ) : FrameOK (zeroFrame H W) := by
  intro chn hchn row hrow x hx r hr
  simp only [zeroFrame, List.mem_map] at hchn
  obtain ⟨c, _, rfl⟩ := hchn
  simp only [List.mem_map] at hrow
  obtain ⟨i, _, rfl⟩ := hrow
  simp only [List.mem_map] at hx
  obtain ⟨j, _, rfl⟩ := hx
  simp only [Option.some.injEq] at hr
  subst hr
  exact ⟨by norm_num, by norm_num⟩

theorem frameOK_of_mkFrame {base : Field} {H W : ℕ} {ef ch : ℝ} {fr : Frame}
    (h : mkFrame base H W ef ch = some fr) : FrameOK fr := by
  unfold mkFrame at h
  split at h
  · rw [Option.some.injEq] at h
    subst h
    exact frameOK_frameChans _ _ _
  · exact absurd h (by simp)

theorem foldl_stepFrame_frameOK (H W : ℕ) (ty : String) (intensity tsLast : ℝ)
    (rng : ℕ → ℕ → ℝ × ℝ) :
    ∀ (l : List (ℕ × ℝ)) (pers : ℝ) (acc : List Frame) (p2 : ℝ)
      (frames : List Frame),
      (∀ fr ∈ acc, FrameOK fr) →
      l.foldl (stepFrame H W ty intensity tsLast rng) (some (pers, acc)) =
        some (p2, frames) →
      ∀ fr ∈ frames, FrameOK fr := by
  intro l
  induction l with
  | nil =>
    intro pers acc p2 frames hacc heq
    rw [List.foldl_nil, Option.some.injEq] at heq
    rw [← (Prod.mk.injEq _ _ _ _).mp heq |>.2]
    exact hacc
  | cons it l ih =>
    intro pers acc p2 frames hacc heq
    rw [List.foldl_cons] at heq
    rcases hst : stepFrame H W ty intensity tsLast rng (some (pers, acc)) it with
      _ | ⟨q, acc2⟩
    · rw [hst, foldl_stepFrame_none] at heq
      exact absurd heq (by simp)
    · rw [hst] at heq
      refine ih q acc2 p2 frames ?_ heq
      simp only [stepFrame] at hst
      rcases hmk : mkFrame (baseNoiseFor ty H W
          (energy_factor intensity (time_scale it.2 tsLast)) (chaos_of it.2) it.2
          (if ty = "fbm" then
            0.2 + energy_factor intensity (time_scale it.2 tsLast) * 0.8 else pers)
          (rng it.1)) H W (energy_factor intensity (time_scale it.2 tsLast))
          (chaos_of it.2) with _ | fr0
      · rw [hmk] at hst
        exact absurd hst (by simp)
      · rw [hmk] at hst
        simp only [Option.some.injEq, Prod.mk.injEq] at hst
        intro fr hfr
        rw [← hst.2] at hfr
        rcases List.mem_append.mp hfr with h1 | h2
        · exact hacc fr h1
        · rw [List.mem_singleton.mp h2]
          exact frameOK_of_mkFrame hmk

/-! ## The initial `persistence` read never influences the output -/

theorem foldl_stepFrame_pers_irrel (H W : ℕ) (ty : String) (intensity tsLast : ℝ)
    (rng : ℕ → ℕ → ℝ × ℝ) :
    ∀ (l : List (ℕ × ℝ)) (p1 p2 : ℝ) (acc : List Frame),
      Option.map Prod.snd (l.foldl (stepFrame H W ty intensity tsLast rng) (some (p1, acc))) =
      Option.map Prod.snd (l.foldl (stepFrame H W ty intensity tsLast rng) (some (p2, acc))) := by
  intro l
  induction l with
  | nil => intro p1 p2 acc; rfl
  | cons it l ih =>
    intro p1 p2 acc
    rw [List.foldl_cons, List.foldl_cons]
    have hbase : baseNoiseFor ty H W (energy_factor intensity (time_scale it.2 tsLast))
          (chaos_of it.2) it.2
          (if ty = "fbm" then
            0.2 + energy_factor intensity (time_scale it.2 tsLast) * 0.8 else p1)
          (rng it.1) =
        baseNoiseFor ty H W (energy_factor intensity (time_scale it.2 tsLast))
          (chaos_of it.2) it.2
          (if ty = "fbm" then
            0.2 + energy_factor intensity (time_scale it.2 tsLast) * 0.8 else p2)
          (rng it.1) := by
      by_cases hf : ty = "fbm"
      · rw [if_pos hf, if_pos hf]
      · rw [if_neg hf, if_neg hf]
        exact baseNoiseFor_pers_irrel hf _ _ _ _ _ _ _ _
    simp only [stepFrame, hbase]
    rcases hmk : mkFrame (baseNoiseFor ty H W
        (energy_factor intensity (time_scale it.2 tsLast)) (chaos_of it.2) it.2
        (if ty = "fbm" then
          0.2 + energy_factor intensity (time_scale it.2 tsLast) * 0.8 else p2)
        (rng it.1)) H W (energy_factor intensity (time_scale it.2 tsLast))
        (chaos_of it.2) with _ | fr0
    · rw [foldl_stepFrame_none]
    · by_cases hf : ty = "fbm"
      · rw [if_pos hf, if_pos hf]
      · rw [if_neg hf, if_neg hf]
        exact ih p1 p2 (acc ++ [fr0])

/-! ## Only the cellular family reads the random stream -/

theorem stepFrame_rng_irrel {ty : String} (hty : ty ≠ "cellular") (H W : ℕ)
    (intensity tsLast : ℝ) (rng1 rng2 : ℕ → ℕ → ℝ × ℝ) :
    stepFrame H W ty intensity tsLast rng1 = stepFrame H W ty intensity tsLast rng2 := by
  funext st it
  cases st with
  | none => rfl
  | some pa =>
    simp only [stepFrame]
    rw [baseNoiseFor_rand_irrel hty H W _ _ _ _ (rng1 it.1) (rng2 it.1)]

/-! ## Min-max normalisation lemmas -/

theorem flat_map_map (g : ℝ → ℝ) (A : Field) :
    flat (A.map (List.map g)) = (flat A).map g := by
  unfold flat
  exact (List.map_flatten g A).symm

theorem fminF_lt_fmaxF_of_nonconst {A : Field}
    (h : ∃ x ∈ flat A, ∃ y ∈ flat A, x ≠ y) : fminF A < fmaxF A := by
  obtain ⟨x, hx, y, hy, hxy⟩ := h
  rcases Ne.lt_or_lt hxy with h1 | h1
  · exact lt_of_le_of_lt (listMin_le hx) (lt_of_lt_of_le h1 (le_listMax hy))
  · exact lt_of_le_of_lt (listMin_le hy) (lt_of_lt_of_le h1 (le_listMax hx))

theorem normalizeField_nonconst {A : Field}
    (h : ∃ x ∈ flat A, ∃ y ∈ flat A, x ≠ y) :
    normalizeField A = (normVals A).map (List.map some) := by
  have hne : fmaxF A ≠ fminF A := ne_of_gt (fminF_lt_fmaxF_of_nonconst h)
  unfold normalizeField normVals
  rw [if_neg hne]
  simp [List.map_map, Function.comp]

theorem normVals_bounds {A : Field}
    (h : ∃ x ∈ flat A, ∃ y ∈ flat A, x ≠ y) :
    fminF (normVals A) = 0 ∧ fmaxF (normVals A) = 1 := by
  have hnil : flat A ≠ [] := by
    obtain ⟨x0, hx0, -⟩ := h
    exact List.ne_nil_of_mem hx0
  have hlt := fminF_lt_fmaxF_of_nonconst h
  have hpos : 0 < fmaxF A - fminF A := sub_pos.mpr hlt
  have hmono : Monotone (fun v : ℝ => (v - fminF A) / (fmaxF A - fminF A)) := by
    intro a b hab
    exact (div_le_div_iff_of_pos_right hpos).mpr (by linarith)
  have hmins : ∀ a b : ℝ,
      (fun v : ℝ => (v - fminF A) / (fmaxF A - fminF A)) (min a b) =
        min ((fun v : ℝ => (v - fminF A) / (fmaxF A - fminF A)) a)
          ((fun v : ℝ => (v - fminF A) / (fmaxF A - fminF A)) b) := by
    intro a b
    exact hmono.map_min
  have hmaxs : ∀ a b : ℝ,
      (fun v : ℝ => (v - fminF A) / (fmaxF A - fminF A)) (max a b) =
        max ((fun v : ℝ => (v - fminF A) / (fmaxF A - fminF A)) a)
          ((fun v : ℝ => (v - fminF A) / (fmaxF A - fminF A)) b) := by
    intro a b
    exact hmono.map_max
  constructor
  · show listMin (flat (A.map (List.map _))) = 0
    rw [flat_map_map, listMin_map _ hmins hnil]
    show (listMin (flat A) - fminF A) / (fmaxF A - fminF A) = 0
    rw [show listMin (flat A) = fminF A from rfl, sub_self, zero_div]
  · show listMax (flat (A.map (List.map _))) = 1
    rw [flat_map_map, listMax_map _ hmaxs hnil]
    show (listMax (flat A) - fminF A) / (fmaxF A - fminF A) = 1
    rw [show listMax (flat A) = fmaxF A from rfl]
    exact div_self (ne_of_gt hpos)

theorem fmaxF_eq_fminF_of_const {A : Field}
    (h : ∀ x ∈ flat A, ∀ y ∈ flat A, x = y) : fmaxF A = fminF A := by
  cases hfa : flat A with
  | nil =>
    unfold fmaxF fminF
    rw [hfa]
    rfl
  | cons a t =>
    have hnil : flat A ≠ [] := by rw [hfa]; exact List.cons_ne_nil _ _
    exact h _ (listMax_mem hnil) _ (listMin_mem hnil)

theorem normalizeField_const {A : Field}
    (h : ∀ x ∈ flat A, ∀ y ∈ flat A, x = y) :
    normalizeField A = A.map (List.map fun _ => (none : Option ℝ)) := by
  unfold normalizeField
  rw [if_pos (fmaxF_eq_fminF_of_const h)]

theorem frameChans_const_none {A : Field}
    (h : ∀ x ∈ flat A, ∀ y ∈ flat A, x = y) (ef ch : ℝ) :
    ∀ chn ∈ frameChans (normalizeField A) ef ch, ∀ row ∈ chn, ∀ x ∈ row,
      x = none := by
  rw [normalizeField_const h]
  intro chn hchn row hrow x hx
  simp only [frameChans, List.mem_map] at hchn
  obtain ⟨c, _, rfl⟩ := hchn
  simp only [channelField, List.map_map, List.mem_map] at hrow
  obtain ⟨row0, _, rfl⟩ := hrow
  simp only [List.mem_map, Function.comp] at hx
  obtain ⟨y, hy, rfl⟩ := hx
  obtain ⟨a, -, rfl⟩ := hy
  rfl

/-! ## Association-list lookup and the default merge -/

theorem lookup_cons (k : String) (a : String × NVal) (t : Params) :
    List.lookup k (a :: t) = if k == a.1 then some a.2 else List.lookup k t := by
  rcases a with ⟨k2, v⟩
  by_cases h : (k == k2) = true
  · simp [List.lookup, h]
  · simp [List.lookup, h]

theorem lookup_append_some {k : String} :
    ∀ {l1 : Params} (l2 : Params) {v : NVal}, List.lookup k l1 = some v →
      List.lookup k (l1 ++ l2) = some v := by
  intro l1
  induction l1 with
  | nil => intro l2 v h; exact Option.noConfusion h
  | cons a t ih =>
    intro l2 v h
    rw [List.cons_append, lookup_cons]
    rw [lookup_cons] at h
    by_cases hk : k == a.1
    · rwa [if_pos hk] at h ⊢
    · rw [if_neg hk] at h ⊢
      exact ih l2 h

theorem lookup_append_none {k : String} :
    ∀ {l1 : Params} (l2 : Params), List.lookup k l1 = none →
      List.lookup k (l1 ++ l2) = List.lookup k l2 := by
  intro l1
  induction l1 with
  | nil => intro l2 _; rfl
  | cons a t ih =>
    intro l2 h
    rw [List.cons_append, lookup_cons]
    rw [lookup_cons] at h
    by_cases hk : k == a.1
    · rw [if_pos hk] at h; exact Option.noConfusion h
    · rw [if_neg hk] at h ⊢
      exact ih l2 h

theorem lookup_mergeLoop_of_isSome :
    ∀ (ds acc : Params) (k : String), (List.lookup k acc).isSome →
      List.lookup k (mergeLoop ds acc) = List.lookup k acc := by
  intro ds
  induction ds with
  | nil => intro acc k _; rfl
  | cons d t ih =>
    intro acc k h
    show List.lookup k (mergeLoop t
      (if (List.lookup d.1 acc).isSome then acc else acc ++ [d])) = _
    by_cases hd : (List.lookup d.1 acc).isSome
    · rw [if_pos hd]
      exact ih acc k h
    · rw [if_neg hd]
      rcases hs : List.lookup k acc with _ | v
      · rw [hs] at h; simp at h
      · have h2 : List.lookup k (acc ++ [d]) = some v := lookup_append_some [d] hs
        rw [ih (acc ++ [d]) k (by rw [h2]; rfl), h2]

theorem lookup_mergeLoop_inserts :
    ∀ (ds acc : Params) (kv : String × NVal), kv ∈ ds →
      (ds.map Prod.fst).Nodup → List.lookup kv.1 acc = none →
      List.lookup kv.1 (mergeLoop ds acc) = some kv.2 := by
  intro ds
  induction ds with
  | nil => intro acc kv h; cases h
  | cons d t ih =>
    intro acc kv hmem hnd hnone
    show List.lookup kv.1 (mergeLoop t
      (if (List.lookup d.1 acc).isSome then acc else acc ++ [d])) = _
    rcases List.mem_cons.mp hmem with rfl | h2
    · rw [if_neg (by rw [hnone]; simp)]
      have hlk : List.lookup kv.1 (acc ++ [kv]) = some kv.2 := by
        rw [lookup_append_none [kv] hnone, lookup_cons, if_pos (by simp)]
      rw [lookup_mergeLoop_of_isSome t (acc ++ [kv]) kv.1 (by rw [hlk]; rfl), hlk]
    · have hnd2 : (t.map Prod.fst).Nodup := (List.nodup_cons.mp hnd).2
      have hne : kv.1 ≠ d.1 := by
        intro he
        exact (List.nodup_cons.mp hnd).1 (he ▸ List.mem_map_of_mem Prod.fst h2)
      by_cases hd : (List.lookup d.1 acc).isSome
      · rw [if_pos hd]
        exact ih acc kv h2 hnd2 hnone
      · rw [if_neg hd]
        refine ih (acc ++ [d]) kv h2 hnd2 ?_
        rw [lookup_append_none [d] hnone, lookup_cons,
          if_neg (by simpa using hne)]
        rfl

/-! ## The `PA` relation: agreement up to the fbm `persistence` entry -/

theorem valRel_refl (v : NVal) : valRel v v := by
  cases v with
  | ts l => rfl
  | fam f => rfl

theorem PA_refl (p : Params) : PA p p := by
  apply List.forall₂_same.mpr
  intro kv _
  exact ⟨rfl, fun _ => valRel_refl kv.2, fun _ => rfl⟩

theorem PA_updFbmPers (p : Params) (o1 o2 : Option ℝ) :
    PA (updFbmPers p o1) (updFbmPers p o2) := by
  induction p with
  | nil => exact List.Forall₂.nil
  | cons kv t ih =>
    refine List.Forall₂.cons ?_ ih
    dsimp only
    by_cases hf : kv.1 = "fbm"
    · rw [if_pos hf, if_pos hf]
      refine ⟨rfl, fun _ => ?_, fun hne => absurd hf hne⟩
      cases kv.2 with
      | ts l => exact rfl
      | fam f => exact rfl
    · rw [if_neg hf, if_neg hf]
      exact ⟨rfl, fun hh => absurd hh hf, fun _ => rfl⟩

theorem PA_lookup_ne {P Q : Params} (h : PA P Q) {k : String}
    (hk : k ≠ "fbm") : List.lookup k P = List.lookup k Q := by
  induction h with
  | nil => rfl
  | @cons a b l1 l2 he hrest ih =>
    rw [lookup_cons, lookup_cons, ← he.1]
    by_cases hkk : (k == a.1) = true
    · rw [if_pos hkk, if_pos hkk]
      have hker : k = a.1 := eq_of_beq hkk
      have hane : a.1 ≠ "fbm" := by rw [← hker]; exact hk
      rw [he.2.2 hane]
    · rw [if_neg hkk, if_neg hkk]
      exact ih

theorem PA_lookup_fbm {P Q : Params} (h : PA P Q) :
    (List.lookup "fbm" P = none ∧ List.lookup "fbm" Q = none) ∨
      (∃ v w, List.lookup "fbm" P = some v ∧ List.lookup "fbm" Q = some w ∧
        valRel v w) := by
  induction h with
  | nil => exact Or.inl ⟨rfl, rfl⟩
  | @cons a b l1 l2 he hrest ih =>
    rw [lookup_cons, lookup_cons, ← he.1]
    by_cases hkk : (("fbm" : String) == a.1) = true
    · rw [if_pos hkk, if_pos hkk]
      exact Or.inr ⟨a.2, b.2, rfl, rfl, he.2.1 (eq_of_beq hkk).symm⟩
    · rw [if_neg hkk, if_neg hkk]
      exact ih

theorem PA_lookup_isSome {P Q : Params} (h : PA P Q) (k : String) :
    (List.lookup k P).isSome = (List.lookup k Q).isSome := by
  by_cases hk : k = "fbm"
  · subst hk
    rcases PA_lookup_fbm h with ⟨h1, h2⟩ | ⟨v, w, h1, h2, -⟩ <;> rw [h1, h2] <;> rfl
  · rw [PA_lookup_ne h hk]

theorem PA_append_right {P Q : Params} (h : PA P Q) (l : Params) :
    PA (P ++ l) (Q ++ l) :=
  List.rel_append h (PA_refl l)

theorem PA_mergeLoop : ∀ (ds : Params) {P Q : Params}, PA P Q →
    PA (mergeLoop ds P) (mergeLoop ds Q) := by
  intro ds
  induction ds with
  | nil => intro P Q h; exact h
  | cons d t ih =>
    intro P Q h
    show PA (mergeLoop t (if (List.lookup d.1 P).isSome then P else P ++ [d]))
      (mergeLoop t (if (List.lookup d.1 Q).isSome then Q else Q ++ [d]))
    rw [PA_lookup_isSome h d.1]
    by_cases hd : (List.lookup d.1 Q).isSome
    · rw [if_pos hd, if_pos hd]
      exact ih h
    · rw [if_neg hd, if_neg hd]
      exact ih (PA_append_right h [d])

theorem PA_mergeParams {P Q : Params} (h : PA P Q) :
    PA (mergeParams P) (mergeParams Q) := by
  cases h with
  | nil => exact PA_refl _
  | cons he ht => exact PA_mergeLoop default_noise_params (List.Forall₂.cons he ht)

theorem getTs_eq_of_PA {P Q : Params} (h : PA P Q) : getTs P = getTs Q := by
  unfold getTs
  rw [PA_lookup_ne h (by decide)]

theorem getFam_intensity_eq_of_PA {P Q : Params} (h : PA P Q) (ty : String) :
    (getFam P ty).intensity = (getFam Q ty).intensity := by
  by_cases hf : ty = "fbm"
  · subst hf
    unfold getFam
    rcases PA_lookup_fbm h with ⟨h1, h2⟩ | ⟨v, w, h1, h2, hvw⟩
    · rw [h1, h2]
    · rw [h1, h2]
      cases v with
      | ts l =>
        cases w with
        | ts l2 => rfl
        | fam g => exact NVal.noConfusion hvw
      | fam f =>
        cases w with
        | ts l2 => exact NVal.noConfusion hvw
        | fam g => exact hvw
  · unfold getFam
    rw [PA_lookup_ne h hf]

/-! ## Loop-level consequences -/

theorem runLoop_ok {ty : String} {H W : ℕ} (hok : tyOk ty H W) (hH : 0 < H)
    (intensity pers0 tsLast : ℝ) (rng : ℕ → ℕ → ℝ × ℝ) (ts : List ℝ) :
    runLoop H W ty intensity pers0 tsLast rng ts =
      some (ts.enum.map (frameAtD ty H W intensity tsLast rng), ts) := by
  unfold runLoop
  obtain ⟨p2, hp⟩ := foldl_stepFrame_ok hok hH intensity tsLast rng ts.enum pers0 []
  rw [List.nil_append] at hp
  rw [hp]

theorem runLoop_pers_irrel (H W : ℕ) (ty : String) (intensity tsLast : ℝ)
    (rng : ℕ → ℕ → ℝ × ℝ) (ts : List ℝ) (p1 p2 : ℝ) :
    runLoop H W ty intensity p1 tsLast rng ts =
      runLoop H W ty intensity p2 tsLast rng ts := by
  unfold runLoop
  have hmap := foldl_stepFrame_pers_irrel H W ty intensity tsLast rng ts.enum p1 p2 []
  rcases h1 : ts.enum.foldl (stepFrame H W ty intensity tsLast rng) (some (p1, []))
    with _ | ⟨a1, b1⟩
  · rcases h2 : ts.enum.foldl (stepFrame H W ty intensity tsLast rng) (some (p2, []))
      with _ | ⟨a2, b2⟩
    · rfl
    · rw [h1, h2] at hmap
      exact absurd hmap (by simp)
  · rcases h2 : ts.enum.foldl (stepFrame H W ty intensity tsLast rng) (some (p2, []))
      with _ | ⟨a2, b2⟩
    · rw [h1, h2] at hmap
      exact absurd hmap (by simp)
    · rw [h1, h2] at hmap
      have hb : b1 = b2 := by simpa using hmap
      rw [hb]

theorem runLoop_rng_irrel {ty : String} (hty : ty ≠ "cellular") (H W : ℕ)
    (intensity pers0 tsLast : ℝ) (rng1 rng2 : ℕ → ℕ → ℝ × ℝ) (ts : List ℝ) :
    runLoop H W ty intensity pers0 tsLast rng1 ts =
      runLoop H W ty intensity pers0 tsLast rng2 ts := by
  unfold runLoop
  rw [stepFrame_rng_irrel hty H W intensity tsLast rng1 rng2]

theorem generate_congr {P Q : Params} (ty : String) (w h : ℕ)
    (rng : ℕ → ℕ → ℝ × ℝ)
    (hts : getTs (mergeParams P) = getTs (mergeParams Q))
    (hint : (getFam (mergeParams P) ty).intensity =
      (getFam (mergeParams Q) ty).intensity) :
    generate_advanced_noise P w h ty rng = generate_advanced_noise Q w h ty rng := by
  simp only [generate_advanced_noise]
  rcases hc : getTs (mergeParams P) with _ | ⟨t0, rest⟩
  · have hc2 : getTs (mergeParams Q) = [] := by rw [← hts]; exact hc
    rw [hc2]
  · have hc2 : getTs (mergeParams Q) = t0 :: rest := by rw [← hts]; exact hc
    rw [hc2]
    show runLoop (h / 8) (w / 8) ty (((getFam (mergeParams P) ty).intensity).getD 1)
        (((getFam (mergeParams P) ty).persistence).getD 0.5)
        ((t0 :: rest).getLastD 0) rng (t0 :: rest) =
      runLoop (h / 8) (w / 8) ty (((getFam (mergeParams Q) ty).intensity).getD 1)
        (((getFam (mergeParams Q) ty).persistence).getD 0.5)
        ((t0 :: rest).getLastD 0) rng (t0 :: rest)
    rw [hint]
    exact runLoop_pers_irrel _ _ _ _ _ _ _ _ _

/-! ## The claims -/

/-- C3: for every timestamp `t`, last timestamp `L ≠ 0` and intensity
`i ≥ 0`, the schedule is `time_scale = (t/L)**0.3`,
`energy_factor = i * exp(2*time_scale)` (the code's `i*(1 + exp(2*ts) - 1)`
simplifies to exactly this value), and
`chaos = 0.5 + |sin(10*t)|*2 ∈ [0.5, 2.5]`. -/
theorem c3_schedule_formulas (t L i : ℝ) (hL : L ≠ 0) (hi : 0 ≤ i) :
    time_scale t L = (t / L) ^ (0.3 : ℝ) ∧
    energy_factor i (time_scale t L) = i * Real.exp (2 * time_scale t L) ∧
    chaos_of t = 0.5 + |Real.sin (10 * t)| * 2 ∧
    0.5 ≤ chaos_of t ∧ chaos_of t ≤ 2.5 := by
  refine ⟨rfl, ?_, ?_, ?_, ?_⟩
  · unfold energy_factor
    rw [mul_comm (time_scale t L) 2]
    ring
  · unfold chaos_of
    rw [mul_comm t 10]
  · unfold chaos_of
    have := abs_nonneg (Real.sin (t * 10))
    linarith
  · unfold chaos_of
    have := Real.abs_sin_le_one (t * 10)
    linarith

/-- Witness for C3 at `t = 1`, `L = 1`, `i = 0`. -/
theorem c3_schedule_formulas_witness :
    energy_factor 0 (time_scale 1 1) = 0 * Real.exp (2 * time_scale 1 1) ∧
      0.5 ≤ chaos_of 1 ∧ chaos_of 1 ≤ 2.5 :=
  ⟨(c3_schedule_formulas 1 1 0 one_ne_zero le_rfl).2.1,
    (c3_schedule_formulas 1 1 0 one_ne_zero le_rfl).2.2.2.1,
    (c3_schedule_formulas 1 1 0 one_ne_zero le_rfl).2.2.2.2⟩

/-- C8: when the resolved timestamp list is empty, `generate_advanced_noise`
short-circuits and returns the defined degenerate output: a single all-zero
frame of shape `(1, 4, height//8, width//8)` paired with the timestamp list
`[0.0]` — not an error. -/
theorem c8_empty_timestamps (p : Params) (width height : ℕ) (ty : String)
    (rng : ℕ → ℕ → ℝ × ℝ)
    (hts : List.lookup "timestamps" (mergeParams p) = some (NVal.ts [])) :
    generate_advanced_noise p width height ty rng =
      some ([zeroFrame (height / 8) (width / 8)], [0]) ∧
    [zeroFrame (height / 8) (width / 8)].length = 1 ∧
    (zeroFrame (height / 8) (width / 8)).length = 4 ∧
    (∀ chn ∈ zeroFrame (height / 8) (width / 8), chn.length = height / 8 ∧
      ∀ row ∈ chn, row.length = width / 8 ∧ ∀ x ∈ row, x = some 0) := by
  have hget : getTs (mergeParams p) = [] := by
    unfold getTs
    rw [hts]
  refine ⟨?_, rfl, by simp [zeroFrame], ?_⟩
  · simp only [generate_advanced_noise]
    rw [hget]
  · intro chn hchn
    simp only [zeroFrame, List.mem_map] at hchn
    obtain ⟨c, -, rfl⟩ := hchn
    constructor
    · simp
    · intro row hrow
      simp only [List.mem_map] at hrow
      obtain ⟨i, -, rfl⟩ := hrow
      constructor
      · simp
      · intro x hx
        simp only [List.mem_map] at hx
        obtain ⟨j, -, rfl⟩ := hx
        rfl

/-- Witness for C8: a caller-supplied dictionary with an empty timestamp
list. -/
theorem c8_empty_timestamps_witness :
    generate_advanced_noise [("timestamps", NVal.ts [])] 64 64 "simplex"
        (fun _ _ => (0, 0)) =
      some ([zeroFrame (64 / 8) (64 / 8)], [0]) :=
  (c8_empty_timestamps [("timestamps", NVal.ts [])] 64 64 "simplex"
    (fun _ _ => (0, 0)) rfl).1

/-- C9: the output of `generate_advanced_noise` never depends on the
caller-supplied fbm `persistence` value: two parameter dictionaries that
differ only in the `"fbm"` sub-dictionary's `persistence` entry (same
width/height/noise type and the same random stream) produce identical
results, because the `persistence` variable read from the parameters is
overwritten with `0.2 + energy_factor*0.8` before any use and no other
family reads it. -/
theorem c9_persistence_never_read (p : Params) (o1 o2 : Option ℝ)
    (width height : ℕ) (ty : String) (rng : ℕ → ℕ → ℝ × ℝ) :
    generate_advanced_noise (updFbmPers p o1) width height ty rng =
      generate_advanced_noise (updFbmPers p o2) width height ty rng := by
  have hpa : PA (mergeParams (updFbmPers p o1)) (mergeParams (updFbmPers p o2)) :=
    PA_mergeParams (PA_updFbmPers p o1 o2)
  exact generate_congr ty width height rng (getTs_eq_of_PA hpa)
    (getFam_intensity_eq_of_PA hpa ty)

/-- C10: merging a non-empty caller dictionary with the defaults updates the
caller's mapping itself: every default key (`"timestamps"` and the five
family names) absent from the input is inserted with its default value, and
every binding the caller supplied is left unchanged.  (`mergeParams p` is the
post-call state of the caller's dictionary, which the source mutates in
place.) -/
theorem c10_merge_mutates (p : Params) (hp : p ≠ []) :
    (∀ kv ∈ default_noise_params, List.lookup kv.1 p = none →
      List.lookup kv.1 (mergeParams p) = some kv.2) ∧
    (∀ (k : String) (v : NVal), List.lookup k p = some v →
      List.lookup k (mergeParams p) = some v) := by
  have hmp : mergeParams p = mergeLoop default_noise_params p := by
    cases p with
    | nil => exact absurd rfl hp
    | cons a t => rfl
  constructor
  · intro kv hkv hnone
    rw [hmp]
    refine lookup_mergeLoop_inserts default_noise_params p kv hkv ?_ hnone
    decide
  · intro k v hv
    rw [hmp]
    rw [lookup_mergeLoop_of_isSome default_noise_params p k (by rw [hv]; rfl)]
    exact hv

/-- Witness for C10: a dictionary holding only an fbm record gains the five
missing default keys and keeps its own binding. -/
theorem c10_merge_mutates_witness :
    List.lookup "timestamps"
        (mergeParams [("fbm", NVal.fam ⟨some 2, some 0.9⟩)]) =
      some (NVal.ts [0.0, 0.5, 1.0]) ∧
    List.lookup "fbm" (mergeParams [("fbm", NVal.fam ⟨some 2, some 0.9⟩)]) =
      some (NVal.fam ⟨some 2, some 0.9⟩) := by
  constructor
  · exact (c10_merge_mutates [("fbm", NVal.fam ⟨some 2, some 0.9⟩)]
      (by simp)).1 ("timestamps", NVal.ts [0.0, 0.5, 1.0])
      (by simp [default_noise_params]) rfl
  · exact (c10_merge_mutates [("fbm", NVal.fam ⟨some 2, some 0.9⟩)]
      (by simp)).2 "fbm" (NVal.fam ⟨some 2, some 0.9⟩) rfl

/-! ## Concrete cellular evaluations (shared support) -/

theorem sqrt12196_pos : 0 < Real.sqrt 1.2196 :=
  Real.sqrt_pos.mpr (by norm_num)

theorem sqrt12196_le_two : Real.sqrt 1.2196 ≤ 2 := by
  have h4 : (2 : ℝ) = Real.sqrt 4 := by
    rw [show (4 : ℝ) = 2 ^ 2 by norm_num, Real.sqrt_sq (by norm_num : (0 : ℝ) ≤ 2)]
  rw [h4]
  exact Real.sqrt_le_sqrt (by norm_num)

theorem sin_point_two_pos : 0 < Real.sin 0.2 :=
  Real.sin_pos_of_pos_of_lt_pi (by norm_num)
    (lt_trans (by norm_num) Real.pi_gt_three)

theorem cos_cellular_arg_pos : 0 < Real.cos (Real.sqrt 1.2196 * 0.15) := by
  apply Real.cos_pos_of_mem_Ioo
  constructor
  · have h1 := sqrt12196_pos
    have h2 := Real.pi_pos
    nlinarith
  · have h1 := sqrt12196_le_two
    have h2 := Real.pi_gt_three
    nlinarith

theorem cos_cellular_arg_lt_one : Real.cos (Real.sqrt 1.2196 * 0.15) < 1 := by
  have h0 : 0 < Real.sqrt 1.2196 * 0.15 := by
    have := sqrt12196_pos
    nlinarith
  have hle : Real.sqrt 1.2196 * 0.15 ≤ Real.pi := by
    have h1 := sqrt12196_le_two
    have h2 := Real.pi_gt_three
    nlinarith
  have := Real.cos_lt_cos_of_nonneg_of_le_pi (le_refl 0) hle h0
  rwa [Real.cos_zero] at this

theorem listMin_singleton (x : ℝ) : listMin [x] = x := rfl

theorem cellD1_at_00 :
    cellD1 (1, 1) 1 1 (fun _ => ((0.6 : ℝ), (0.8 : ℝ))) 0 0 = 1 := by
  unfold cellD1 cellPoints
  rw [show List.range 1 = [0] from rfl]
  simp only [List.map_cons, List.map_nil, listMin_singleton]
  push_cast
  norm_num

theorem cellD2_at_00 :
    cellD2 (1, 1) 1 1 (fun _ => ((0.6 : ℝ), (0.8 : ℝ))) 0 0 = Real.sqrt 1.2196 := by
  unfold cellD2 cellPoints
  rw [show List.range 1 = [0] from rfl]
  simp only [List.map_cons, List.map_nil, listMin_singleton]
  push_cast
  norm_num

theorem cellD1_zero_rand :
    cellD1 (1, 1) 1 1 (fun _ => ((0 : ℝ), (0 : ℝ))) 0 0 = 0 := by
  unfold cellD1 cellPoints
  rw [show List.range 1 = [0] from rfl]
  simp only [List.map_cons, List.map_nil, listMin_singleton]
  push_cast
  norm_num

theorem cellD2_zero_rand :
    cellD2 (1, 1) 1 1 (fun _ => ((0 : ℝ), (0 : ℝ))) 0 0 = 0 := by
  unfold cellD2 cellPoints
  rw [show List.range 1 = [0] from rfl]
  simp only [List.map_cons, List.map_nil, listMin_singleton]
  push_cast
  norm_num

theorem generate_cellular_11 (rand : ℕ → ℝ × ℝ) :
    generate_cellular (1, 1) 1 1 rand =
      [[Real.sin (cellD1 (1, 1) 1 1 rand 0 0 * 0.2) *
        Real.cos (cellD2 (1, 1) 1 1 rand 0 0 * 0.15)]] := rfl

/-- C7: `generate_advanced_noise` for the simplex, fbm, wave and domain-warp
families is independent of the random stream (those generators are pure
functions of their inputs, so repeated calls with identical inputs agree),
while the cellular generator genuinely depends on the random draws: two
different draws produce different fields, so cellular is not deterministic
across calls unless the seed is fixed. -/
theorem c7_determinism :
    (∀ ty : String,
      (ty = "simplex" ∨ ty = "fbm" ∨ ty = "wave" ∨ ty = "domain_warp") →
      ∀ (p : Params) (w h : ℕ) (rng1 rng2 : ℕ → ℕ → ℝ × ℝ),
        generate_advanced_noise p w h ty rng1 =
          generate_advanced_noise p w h ty rng2) ∧
    generate_cellular (1, 1) 1 1 (fun _ => (0, 0)) ≠
      generate_cellular (1, 1) 1 1 (fun _ => (0.6, 0.8)) := by
  constructor
  · intro ty hty p w h rng1 rng2
    have hnc : ty ≠ "cellular" := by
      rcases hty with rfl | rfl | rfl | rfl <;> decide
    simp only [generate_advanced_noise]
    rcases getTs (mergeParams p) with _ | ⟨t0, rest⟩
    · rfl
    · exact runLoop_rng_irrel hnc _ _ _ _ _ _ _ _
  · rw [generate_cellular_11, generate_cellular_11, cellD1_zero_rand,
      cellD2_zero_rand, cellD1_at_00, cellD2_at_00]
    intro hcon
    have hval : (0 : ℝ) = Real.sin 0.2 * Real.cos (Real.sqrt 1.2196 * 0.15) := by
      simpa using hcon
    have hpos : 0 < Real.sin 0.2 * Real.cos (Real.sqrt 1.2196 * 0.15) :=
      mul_pos sin_point_two_pos cos_cellular_arg_pos
    rw [← hval] at hpos
    exact lt_irrefl _ hpos

/-- Witness for C7 at the simplex family and two distinct random streams. -/
theorem c7_determinism_witness :
    generate_advanced_noise [("timestamps", NVal.ts [1])] 64 64 "simplex"
        (fun _ _ => (0, 0)) =
      generate_advanced_noise [("timestamps", NVal.ts [1])] 64 64 "simplex"
        (fun _ _ => (0.25, 0.75)) :=
  c7_determinism.1 "simplex" (Or.inl rfl) [("timestamps", NVal.ts [1])] 64 64
    (fun _ _ => (0, 0)) (fun _ _ => (0.25, 0.75))

/-- C5 (counterexample): the claim says every generator returns a field whose
first axis has length `H` for every `(H, W)`; the wave generator at
`(H, W) = (2, 3)` returns a field with first axis of length 3, not 2. -/
theorem c5_wave_shape_counterexample :
    (generate_wave (2, 3) 1 (0, 0)).length ≠ 2 := by
  unfold generate_wave
  rw [List.length_map, length_linspace]
  decide

/-- C5 (amended): the simplex, cellular and fbm generators return fields of
shape `(H, W)`; the wave generator and the domain-warp resampling step return
fields of the transposed shape — `(W, H)` for wave, and
`(input row length, input row count)` for domain-warp — which equals
`(H, W)` only on square targets. -/
theorem c5_generator_shapes :
    (∀ (H W : ℕ) (f : ℝ), HasShape (generate_simplex (H, W) f) H W) ∧
    (∀ (H W n : ℕ) (ch : ℝ) (r : ℕ → ℝ × ℝ),
      HasShape (generate_cellular (H, W) n ch r) H W) ∧
    (∀ (H W o : ℕ) (pe la ch : ℝ), HasShape (generate_fbm (H, W) o pe la ch) H W) ∧
    (∀ (H W : ℕ) (f : ℝ) (ph : ℝ × ℝ), HasShape (generate_wave (H, W) f ph) W H) ∧
    (∀ (A : Field) (wf t : ℝ),
      HasShape (domain_warp A wf t) ((A.head?.getD []).length) A.length) :=
  ⟨hasShape_simplex, hasShape_cellular, hasShape_fbm, hasShape_wave,
    hasShape_domain_warp⟩

/-- C6: min-max normalisation of a non-constant field yields a field with
minimum exactly 0 and maximum exactly 1; a perfectly constant field divides
by zero, turning every entry of that frame into NaN (`none`), which
propagates through the channel expander into that timestamp's frame only —
the frame is still produced (`some`), so the rest of the batch is not
aborted. -/
theorem c6_normalization (A : Field) :
    ((∃ x ∈ flat A, ∃ y ∈ flat A, x ≠ y) →
      normalizeField A = (normVals A).map (List.map some) ∧
      fminF (normVals A) = 0 ∧ fmaxF (normVals A) = 1) ∧
    ((∀ x ∈ flat A, ∀ y ∈ flat A, x = y) →
      normalizeField A = A.map (List.map fun _ => (none : Option ℝ))) ∧
    (∀ (H W : ℕ) (ef ch : ℝ), fshape A = (H, W) →
      ∃ fr, mkFrame A H W ef ch = some fr ∧
        ((∀ x ∈ flat A, ∀ y ∈ flat A, x = y) →
          ∀ chn ∈ fr, ∀ row ∈ chn, ∀ x ∈ row, x = none)) := by
  refine ⟨?_, normalizeField_const, ?_⟩
  · intro h
    exact ⟨normalizeField_nonconst h, (normVals_bounds h).1, (normVals_bounds h).2⟩
  · intro H W ef ch hsh
    refine ⟨frameChans (normalizeField A) ef ch, ?_, fun hc => frameChans_const_none hc ef ch⟩
    unfold mkFrame
    rw [if_pos hsh]

/-- Witness for C6: the non-constant field `[[0, 1]]` and the constant field
`[[2, 2]]`. -/
theorem c6_normalization_witness :
    (normalizeField [[0, 1]] = (normVals [[0, 1]]).map (List.map some) ∧
      fminF (normVals [[0, 1]]) = 0 ∧ fmaxF (normVals [[0, 1]]) = 1) ∧
    normalizeField [[2, 2]] = [[2, 2]].map (List.map fun _ => (none : Option ℝ)) ∧
    (∃ fr, mkFrame [[2, 2]] 1 2 1 1 = some fr ∧
      ((∀ x ∈ flat [[2, 2]], ∀ y ∈ flat [[2, 2]], x = y) →
        ∀ chn ∈ fr, ∀ row ∈ chn, ∀ x ∈ row, x = none)) := by
  refine ⟨(c6_normalization [[0, 1]]).1 ?_, (c6_normalization [[2, 2]]).2.1 ?_,
    (c6_normalization [[2, 2]]).2.2 1 2 1 1 rfl⟩
  · refine ⟨0, by simp [flat], 1, by simp [flat], by norm_num⟩
  · intro x hx y hy
    simp only [flat, List.flatten, List.mem_cons, List.mem_singleton,
      List.append_nil] at hx hy
    simp only [List.not_mem_nil, or_false] at hx hy
    rw [show x = 2 by tauto, show y = 2 by tauto]

/-- C2: for every valid input (non-empty timestamps, nonzero last timestamp,
non-negative intensity, non-negative timestamp ratios — the last excludes the
documented NaN case of a fractional power of a negative base), every defined
entry of the returned batch lies in `[-1, 1]`; the NaN edge case of a
constant field shows up as `none` entries, which are exactly the entries the
bound does not constrain. -/
theorem c2_output_bounded (p : Params) (width height : ℕ) (ty : String)
    (rng : ℕ → ℕ → ℝ × ℝ) (ts : List ℝ)
    (hlk : List.lookup "timestamps" (mergeParams p) = some (NVal.ts ts))
    (hne : ts ≠ [])
    (hL : ts.getLastD 0 ≠ 0)
    (hi : 0 ≤ intensityOf p ty)
    (hg : ∀ t ∈ ts, 0 ≤ t / ts.getLastD 0) :
    ∀ frames ts2,
      generate_advanced_noise p width height ty rng = some (frames, ts2) →
      ∀ fr ∈ frames, ∀ chn ∈ fr, ∀ row ∈ chn, ∀ x ∈ row, ∀ r : ℝ,
        x = some r → -1 ≤ r ∧ r ≤ 1 := by
  intro frames ts2 hgen
  have hget : getTs (mergeParams p) = ts := by
    unfold getTs
    rw [hlk]
  cases ts with
  | nil => exact absurd rfl hne
  | cons t0 rest =>
    simp only [generate_advanced_noise, hget] at hgen
    unfold runLoop at hgen
    rcases hfold : (t0 :: rest).enum.foldl
        (stepFrame (height / 8) (width / 8) ty
          (((getFam (mergeParams p) ty).intensity).getD 1)
          ((t0 :: rest).getLastD 0) rng)
        (some (((getFam (mergeParams p) ty).persistence).getD 0.5, []))
      with _ | ⟨q, fl⟩
    · rw [hfold] at hgen
      exact absurd hgen (by simp)
    · rw [hfold] at hgen
      have h2 := Option.some.inj hgen
      have hfl : fl = frames := congrArg Prod.fst h2
      have hok := foldl_stepFrame_frameOK (height / 8) (width / 8) ty
        (((getFam (mergeParams p) ty).intensity).getD 1)
        ((t0 :: rest).getLastD 0) rng (t0 :: rest).enum
        (((getFam (mergeParams p) ty).persistence).getD 0.5) [] q fl
        (fun fr hfr => absurd hfr (List.not_mem_nil fr)) hfold
      intro fr hfr
      exact hok fr (hfl ▸ hfr)

/-- Witness for C2: one timestamp, simplex noise, an 8×8 request. -/
theorem c2_output_bounded_witness :
    ([(1 : ℝ)] ≠ []) ∧ (List.getLastD [(1 : ℝ)] 0 ≠ 0) ∧
    (∀ frames ts2,
      generate_advanced_noise [("timestamps", NVal.ts [1])] 8 8 "simplex"
          (fun _ _ => (0, 0)) = some (frames, ts2) →
      ∀ fr ∈ frames, ∀ chn ∈ fr, ∀ row ∈ chn, ∀ x ∈ row, ∀ r : ℝ,
        x = some r → -1 ≤ r ∧ r ≤ 1) := by
  refine ⟨by simp, by norm_num, ?_⟩
  refine c2_output_bounded [("timestamps", NVal.ts [1])] 8 8 "simplex"
    (fun _ _ => (0, 0)) [1] rfl (by simp) (by norm_num) ?_ ?_
  · have hI : intensityOf [("timestamps", NVal.ts [1])] "simplex" = 1 := by
      unfold intensityOf
      rw [show getFam (mergeParams [("timestamps", NVal.ts [1])]) "simplex" =
        ⟨some 1.0, none⟩ from rfl]
      norm_num
    rw [hI]
    norm_num
  · intro t ht
    rw [List.mem_singleton.mp ht]
    norm_num

/-- C1 (counterexample): with the wave family and a non-square latent grid
(width 128, height 64, so the latent shape is `(8, 16)`), the generated field
is transposed and the per-channel batch assignment raises a shape-mismatch
error: no batch of the claimed shape is returned. -/
theorem c1_nonsquare_wave_counterexample :
    generate_advanced_noise [("timestamps", NVal.ts [1])] 128 64 "wave"
      (fun _ _ => (0, 0)) = none := rfl

/-- C1 (amended): for every non-empty timestamp list and positive latent
sizes, `generate_advanced_noise` returns the batch paired with the timestamp
sequence, with exactly `len(timestamps)` frames of 4 channels of shape
`(height//8, width//8)`, and frame `i` assembled from timestamp `i` — for
the simplex, cellular and fbm families always, and for the wave and
domain-warp families provided `height//8 = width//8` (otherwise the
per-channel assignment raises a shape-mismatch error instead, see the
counterexample). -/
theorem c1_batch_shape_and_order (p : Params) (width height : ℕ) (ty : String)
    (rng : ℕ → ℕ → ℝ × ℝ) (ts : List ℝ)
    (hlk : List.lookup "timestamps" (mergeParams p) = some (NVal.ts ts))
    (hne : ts ≠ [])
    (hH : 0 < height / 8) (hW : 0 < width / 8)
    (hok : tyOk ty (height / 8) (width / 8)) :
    generate_advanced_noise p width height ty rng =
      some (ts.enum.map (frameAtD ty (height / 8) (width / 8)
        (intensityOf p ty) (ts.getLastD 0) rng), ts) ∧
    (ts.enum.map (frameAtD ty (height / 8) (width / 8)
      (intensityOf p ty) (ts.getLastD 0) rng)).length = ts.length ∧
    (∀ fr ∈ ts.enum.map (frameAtD ty (height / 8) (width / 8)
        (intensityOf p ty) (ts.getLastD 0) rng),
      fr.length = 4 ∧ ∀ chn ∈ fr, chn.length = height / 8 ∧
        ∀ row ∈ chn, row.length = width / 8) := by
  have hget : getTs (mergeParams p) = ts := by
    unfold getTs
    rw [hlk]
  have hint : intensityOf p ty = ((getFam (mergeParams p) ty).intensity).getD 1 := rfl
  refine ⟨?_, ?_, ?_⟩
  · cases ts with
    | nil => exact absurd rfl hne
    | cons t0 rest =>
      simp only [generate_advanced_noise, hget]
      rw [hint]
      exact runLoop_ok hok hH _ _ _ rng (t0 :: rest)
  · rw [List.length_map, List.enum_length]
  · intro fr hfr
    simp only [List.mem_map] at hfr
    obtain ⟨it, -, rfl⟩ := hfr
    have hbase := hasShape_baseNoiseFor hok hH
      (energy_factor (intensityOf p ty) (time_scale it.2 (ts.getLastD 0)))
      (chaos_of it.2) it.2
      (0.2 + energy_factor (intensityOf p ty) (time_scale it.2 (ts.getLastD 0)) * 0.8)
      (rng it.1)
    have hmk := mkFrame_eq_some hbase hH
      (energy_factor (intensityOf p ty) (time_scale it.2 (ts.getLastD 0)))
      (chaos_of it.2)
    have hfr2 : frameAtD ty (height / 8) (width / 8) (intensityOf p ty)
        (ts.getLastD 0) rng it =
      frameChans (normalizeField (baseNoiseFor ty (height / 8) (width / 8)
        (energy_factor (intensityOf p ty) (time_scale it.2 (ts.getLastD 0)))
        (chaos_of it.2) it.2
        (0.2 + energy_factor (intensityOf p ty)
          (time_scale it.2 (ts.getLastD 0)) * 0.8)
        (rng it.1)))
        (energy_factor (intensityOf p ty) (time_scale it.2 (ts.getLastD 0)))
        (chaos_of it.2) := by
      simp only [frameAtD]
      rw [hmk]
      rfl
    rw [hfr2]
    constructor
    · simp [frameChans]
    · intro chn hchn
      simp only [frameChans, List.mem_map] at hchn
      obtain ⟨c, -, rfl⟩ := hchn
      have hc := hasShape_channelField (hasShape_normalizeField hbase) c
        (energy_factor (intensityOf p ty) (time_scale it.2 (ts.getLastD 0)))
        (chaos_of it.2)
      exact ⟨hc.1, hc.2⟩

/-- Witness for C1 at one timestamp, simplex noise, 64×64. -/
theorem c1_batch_shape_and_order_witness :
    generate_advanced_noise [("timestamps", NVal.ts [1])] 64 64 "simplex"
        (fun _ _ => (0, 0)) =
      some (([(1 : ℝ)]).enum.map (frameAtD "simplex" (64 / 8) (64 / 8)
        (intensityOf [("timestamps", NVal.ts [1])] "simplex")
        (List.getLastD [(1 : ℝ)] 0) (fun _ _ => (0, 0))), [1]) :=
  (c1_batch_shape_and_order [("timestamps", NVal.ts [1])] 64 64 "simplex"
    (fun _ _ => (0, 0)) [1] rfl (by simp) (by norm_num) (by norm_num)
    (Or.inl rfl)).1

/-- C4 (counterexample): the claim calls for two *independent* random seed
sets, the second anisotropically scaled.  The source draws a single seed set
and reuses it (scaled) for the second distance field: on the 1×1 grid with
the draw `(0.6, 0.8)` the source's output differs from the spec-modelled
variant that draws the independent second set `(0, 0)`. -/
theorem c4_independent_sets_counterexample :
    generate_cellular (1, 1) 1 1 (fun _ => (0.6, 0.8)) ≠
      generate_cellular_spec (1, 1) 1 1 (fun _ => (0.6, 0.8)) (fun _ => (0, 0)) := by
  have hspec : generate_cellular_spec (1, 1) 1 1 (fun _ => (0.6, 0.8))
      (fun _ => (0, 0)) =
      [[Real.sin (cellD1 (1, 1) 1 1 (fun _ => (0.6, 0.8)) 0 0 * 0.2) *
        Real.cos (cellD2 (1, 1) 1 1 (fun _ => (0, 0)) 0 0 * 0.15)]] := rfl
  rw [generate_cellular_11, hspec, cellD1_at_00, cellD2_at_00, cellD2_zero_rand]
  intro hcon
  have hval : Real.sin 0.2 * Real.cos (Real.sqrt 1.2196 * 0.15) = Real.sin 0.2 := by
    simpa using hcon
  have hlt : Real.sin 0.2 * Real.cos (Real.sqrt 1.2196 * 0.15) < Real.sin 0.2 := by
    have h1 := mul_lt_mul_of_pos_left cos_cellular_arg_lt_one sin_point_two_pos
    simpa using h1
  exact absurd hval (ne_of_lt hlt)

/-- C4 (amended): in the cellular generator the two distance fields are
per-cell minimum Euclidean distances computed against a *single* random seed
set — `d1` against the points themselves and `d2` against the same points
with coordinates scaled by `(1.5, 0.8)` — and the output cell value is
`sin(d1*0.2) * cos(d2*0.15)`. -/
theorem c4_cellular_distance_fields (shape : ℕ × ℕ) (n : ℕ) (ch : ℝ)
    (rand : ℕ → ℝ × ℝ) (i j : ℕ) (hi : i < shape.1) (hj : j < shape.2)
    (hn : 0 < n) :
    entryAt (generate_cellular shape n ch rand) i j =
      some (Real.sin (cellD1 shape n ch rand i j * 0.2) *
        Real.cos (cellD2 shape n ch rand i j * 0.15)) ∧
    cellD1 shape n ch rand i j ∈
      (cellPoints shape n ch rand).map (fun p =>
        Real.sqrt (((i : ℝ) - p.1) ^ 2 + ((j : ℝ) - p.2) ^ 2)) ∧
    (∀ d ∈ (cellPoints shape n ch rand).map (fun p =>
        Real.sqrt (((i : ℝ) - p.1) ^ 2 + ((j : ℝ) - p.2) ^ 2)),
      cellD1 shape n ch rand i j ≤ d) ∧
    cellD2 shape n ch rand i j ∈
      (cellPoints shape n ch rand).map (fun p =>
        Real.sqrt (((i : ℝ) - p.1 * 1.5) ^ 2 + ((j : ℝ) - p.2 * 0.8) ^ 2)) ∧
    (∀ d ∈ (cellPoints shape n ch rand).map (fun p =>
        Real.sqrt (((i : ℝ) - p.1 * 1.5) ^ 2 + ((j : ℝ) - p.2 * 0.8) ^ 2)),
      cellD2 shape n ch rand i j ≤ d) := by
  have hpts : (cellPoints shape n ch rand).map (fun p =>
      Real.sqrt (((i : ℝ) - p.1) ^ 2 + ((j : ℝ) - p.2) ^ 2)) ≠ [] := by
    unfold cellPoints
    simp only [List.map_map, ne_eq, List.map_eq_nil_iff, List.range_eq_nil]
    omega
  have hpts2 : (cellPoints shape n ch rand).map (fun p =>
      Real.sqrt (((i : ℝ) - p.1 * 1.5) ^ 2 + ((j : ℝ) - p.2 * 0.8) ^ 2)) ≠ [] := by
    unfold cellPoints
    simp only [List.map_map, ne_eq, List.map_eq_nil_iff, List.range_eq_nil]
    omega
  refine ⟨?_, listMin_mem hpts, fun d hd => listMin_le hd,
    listMin_mem hpts2, fun d hd => listMin_le hd⟩
  unfold entryAt generate_cellular
  rw [List.get?_map, List.get?_range hi]
  show ((List.range shape.2).map _).get? j = _
  rw [List.get?_map, List.get?_range hj]
  rfl

/-- Witness for C4 on a 1×2 grid with one seed point. -/
theorem c4_cellular_distance_fields_witness :
    entryAt (generate_cellular (1, 2) 1 1 (fun _ => (0.6, 0.8))) 0 1 =
      some (Real.sin (cellD1 (1, 2) 1 1 (fun _ => (0.6, 0.8)) 0 1 * 0.2) *
        Real.cos (cellD2 (1, 2) 1 1 (fun _ => (0.6, 0.8)) 0 1 * 0.15)) :=
  (c4_cellular_distance_fields (1, 2) 1 1 (fun _ => (0.6, 0.8)) 0 1
    (by norm_num) (by norm_num) (by norm_num)).1

/-- Witness for C5: the wave generator at the non-square target `(2, 3)` has
shape `(3, 2)`. -/
theorem c5_generator_shapes_witness :
    HasShape (generate_wave (2, 3) 1 (0, 0)) 3 2 :=
  c5_generator_shapes.2.2.2.1 2 3 1 (0, 0)

/-- Witness for C9: concrete persistence values `0.1` and `0.7` on an fbm
request give the same output. -/
theorem c9_persistence_never_read_witness :
    generate_advanced_noise
        (updFbmPers [("fbm", NVal.fam ⟨some 1, some 0.3⟩)] (some 0.1))
        64 64 "fbm" (fun _ _ => (0, 0)) =
      generate_advanced_noise
        (updFbmPers [("fbm", NVal.fam ⟨some 1, some 0.3⟩)] (some 0.7))
        64 64 "fbm" (fun _ _ => (0, 0)) :=
  c9_persistence_never_read [("fbm", NVal.fam ⟨some 1, some 0.3⟩)]
    (some 0.1) (some 0.7) 64 64 "fbm" (fun _ _ => (0, 0))

end ANP
